import Mathlib

/-!
Verification of the SonicLink acoustic modem (Python) against its
natural-language specification.

The development shallowly embeds the relevant Python functions as Lean
definitions and proves or refutes the frozen claims about them.

Modelling conventions:
* Python `bytes` values are `List ℕ` (each element is a byte value).
* Ideal real-number semantics is used for floating point: audio samples are
  rationals (`ℚ`), complex DFT values live in `ℂ`, and NumPy float constants
  such as `0.8` are read as the exact rationals they denote in the source text.
* Fallible Python code (functions that may raise or return `None`) is embedded
  with `Option`; `none` covers both `None` returns and raised exceptions that
  a caller catches.
* Python list slices `a[i:j]` (with nonnegative indices) are `pySlice`.
-/

namespace SonicLink

/-- Python slice `a[i:j]` for nonnegative `i`, `j` (empty when `j ≤ i`). -/
def pySlice {α : Type} (a : List α) (i j : ℕ) : List α :=
  (a.drop i).take (j - i)

/-- Big-endian `int.from_bytes`: fold over the byte list. -/
def beVal (bytes : List ℕ) : ℕ :=
  bytes.foldl (fun acc b => 256 * acc + b) 0

/-- Python `int.to_bytes(4, 'big')`; the caller guards `n < 2^32`. -/
def beBytes4 (n : ℕ) : List ℕ :=
  [n / 2 ^ 24 % 256, n / 2 ^ 16 % 256, n / 2 ^ 8 % 256, n % 256]

/-- Worker for `np.argmax`: keeps the first index attaining the maximum,
updating only on a strictly greater element. -/
def argmaxGo {α : Type} [LinearOrder α] (best : α) (bi i : ℕ) : List α → ℕ
  | [] => bi
  | x :: xs => if best < x then argmaxGo x i (i + 1) xs else argmaxGo best bi (i + 1) xs

/-- Embedding of `np.argmax` on a list: index of the first maximal element.
NumPy raises on an empty array; that case is handled at each call site. -/
def argmaxFirst {α : Type} [LinearOrder α] : List α → ℕ
  | [] => 0
  | x :: xs => argmaxGo x 0 1 xs

/-- Worker for `np.argmin`: keeps the first index attaining the minimum,
updating only on a strictly smaller element. -/
def argminGo {α : Type} [LinearOrder α] (best : α) (bi i : ℕ) : List α → ℕ
  | [] => bi
  | x :: xs => if x < best then argminGo x i (i + 1) xs else argminGo best bi (i + 1) xs

/-- Embedding of `np.argmin` on a list: index of the first minimal element. -/
def argminFirst {α : Type} [LinearOrder α] : List α → ℕ
  | [] => 0
  | x :: xs => argminGo x 0 1 xs

/-!
## OFDM bit/byte conversions (`src/soniclink/modulation.py`)

`OFDMModulator._bytes_to_bits` expands bytes MSB-first;
`OFDMDemodulator._bits_to_bytes` packs bits MSB-first and fails on a bit
count that is not a multiple of 8.
-/

/-- Embedding of `OFDMModulator._bytes_to_bits` (modulation.py lines 117-123):
each byte yields its 8 bits MSB-first. -/
def bytesToBits (data : List ℕ) : List ℕ :=
  data.flatMap fun byte => (List.range 8).map fun i => (byte >>> (7 - i)) &&& 1

/-- Byte value from (up to) 8 bits, MSB-first: the
`sum(bit * (2 ** (7 - j)) ...)` expression of `_bits_to_bytes`. -/
def byteVal (bits : List ℕ) : ℕ :=
  (bits.enum.map fun p => p.2 * 2 ^ (7 - p.1)).sum

/-- Embedding of `OFDMDemodulator._bits_to_bytes` (modulation.py lines
388-400): `none` when the bit count is not a multiple of 8, otherwise the
MSB-first packed bytes. -/
def bitsToBytes (bits : List ℕ) : Option (List ℕ) :=
  if bits.length % 8 ≠ 0 then none
  else some ((List.range (bits.length / 8)).map fun k => byteVal (pySlice bits (8 * k) (8 * k + 8)))

/-!
## Huffman compression (`src/soniclink/compression.py`)

`HuffmanCompressor` builds a Huffman tree with Python's `heapq` over nodes
whose ordering compares frequencies only (`HuffmanNode.__lt__`), so the
CPython heap algorithms are embedded below verbatim (with explicit fuel
arguments that dominate the loop iteration counts, so the embedded loops
run exactly as long as the Python `while` loops do).
-/

/-- Embedding of `HuffmanNode` (compression.py lines 13-23). `null` stands
for a Python `None` child reference. -/
inductive HNode where
  | null : HNode
  | mk (char : Option ℕ) (freq : ℕ) (left right : HNode) : HNode
deriving DecidableEq

/-- Frequency field of a node (`null` never reaches a comparison). -/
def HNode.freq : HNode → ℕ
  | .null => 0
  | .mk _ f _ _ => f

/-- Embedding of `HuffmanNode.__lt__`: nodes compare by frequency only. -/
def hlt (a b : HNode) : Bool :=
  a.freq < b.freq

/-- Loop of CPython `heapq._siftdown`: move `newitem` up toward `startpos`.
The fuel is instantiated with `pos`, an upper bound on the iterations. -/
def siftdownLoop : ℕ → List HNode → ℕ → ℕ → HNode → List HNode
  | 0, heap, _, pos, newitem => heap.set pos newitem
  | fuel + 1, heap, startpos, pos, newitem =>
    if startpos < pos then
      let parentpos := (pos - 1) / 2
      let parent := heap.getD parentpos .null
      if hlt newitem parent then siftdownLoop fuel (heap.set pos parent) startpos parentpos newitem
      else heap.set pos newitem
    else heap.set pos newitem

/-- Embedding of CPython `heapq._siftdown`. -/
def siftdown (heap : List HNode) (startpos pos : ℕ) : List HNode :=
  siftdownLoop pos heap startpos pos (heap.getD pos .null)

/-- Loop of CPython `heapq._siftup`: descend to a leaf following the smaller
child. The fuel is instantiated with `endpos`, a bound on the iterations. -/
def siftupLoop : ℕ → List HNode → ℕ → ℕ → List HNode × ℕ
  | 0, heap, pos, _ => (heap, pos)
  | fuel + 1, heap, pos, endpos =>
    let childpos := 2 * pos + 1
    if childpos < endpos then
      let rightpos := childpos + 1
      let childpos :=
        if rightpos < endpos && !hlt (heap.getD childpos .null) (heap.getD rightpos .null)
        then rightpos else childpos
      siftupLoop fuel (heap.set pos (heap.getD childpos .null)) childpos endpos
    else (heap, pos)

/-- Embedding of CPython `heapq._siftup`. -/
def siftup (heap : List HNode) (pos : ℕ) : List HNode :=
  let endpos := heap.length
  let newitem := heap.getD pos .null
  let hp := siftupLoop endpos heap pos endpos
  siftdown (hp.1.set hp.2 newitem) pos hp.2

/-- Embedding of `heapq.heapify`: `for i in reversed(range(n // 2)): _siftup(x, i)`. -/
def heapify (heap : List HNode) : List HNode :=
  ((List.range (heap.length / 2)).reverse).foldl (fun h i => siftup h i) heap

/-- Embedding of `heapq.heappush`. -/
def heappush (heap : List HNode) (item : HNode) : List HNode :=
  siftdown (heap ++ [item]) 0 heap.length

/-- Embedding of `heapq.heappop`; `none` is the `IndexError` on an empty heap. -/
def heappop (heap : List HNode) : Option (HNode × List HNode) :=
  match heap with
  | [] => none
  | _ :: _ =>
    let lastelt := heap.getD (heap.length - 1) .null
    let rest := heap.dropLast
    match rest with
    | [] => some (lastelt, [])
    | _ :: _ => some (rest.getD 0 .null, siftup (rest.set 0 lastelt) 0)

/-- Embedding of `collections.Counter(data)` read through `.items()`:
(byte, count) pairs in first-occurrence order. -/
def counterItems (data : List ℕ) : List (ℕ × ℕ) :=
  data.foldl
    (fun acc b =>
      if acc.any (fun p => p.1 = b) then
        acc.map fun p => if p.1 = b then (p.1, p.2 + 1) else p
      else acc ++ [(b, 1)])
    []

/-- Loop of `HuffmanCompressor._build_tree` (compression.py lines 144-153):
repeatedly pop the two smallest nodes and push their parent. The fuel
(instantiated with the heap length) bounds the iteration count, since each
iteration shrinks the heap by one. -/
def buildLoop : ℕ → List HNode → List HNode
  | 0, heap => heap
  | fuel + 1, heap =>
    if 1 < heap.length then
      match heappop heap with
      | none => heap
      | some (left, h1) =>
        match heappop h1 with
        | none => h1
        | some (right, h2) =>
          buildLoop fuel (heappush h2 (HNode.mk none (left.freq + right.freq) left right))
    else heap

/-- Embedding of `HuffmanCompressor._build_tree` (compression.py lines
138-155), including the `HuffmanNode()` fallback for an empty heap. -/
def buildTree (freqs : List (ℕ × ℕ)) : HNode :=
  let heap := heapify (freqs.map fun p => HNode.mk (some p.1) p.2 .null .null)
  (buildLoop heap.length heap).headD (HNode.mk none 0 .null .null)

/-- Embedding of `HuffmanCompressor._generate_codes` (compression.py lines
157-166): the `codes` dict as an association list in traversal order; a `'0'`
bit is `false`, a `'1'` bit is `true`. -/
def generateCodes (node : HNode) (code : List Bool) : List (ℕ × List Bool) :=
  match node with
  | .null => []
  | .mk (some c) _ _ _ => [(c, code)]
  | .mk none _ l r =>
    (match l with
     | .null => []
     | _ => generateCodes l (code ++ [false])) ++
    (match r with
     | .null => []
     | _ => generateCodes r (code ++ [true]))

/-- Python `int(s, 2)` on a bit string. -/
def bitsVal (bits : List Bool) : ℕ :=
  bits.foldl (fun acc b => 2 * acc + cond b 1 0) 0

/-- Embedding of `HuffmanCompressor._bitstring_to_bytes` (compression.py
lines 168-180): zero-pad to a byte boundary, then pack 8 bits per byte. -/
def bitstringToBytes (bits : List Bool) : List ℕ :=
  let padded := bits ++ List.replicate ((8 - bits.length % 8) % 8) false
  (List.range ((padded.length + 7) / 8)).map fun k => bitsVal (pySlice padded (8 * k) (8 * k + 8))

/-- Embedding of `HuffmanCompressor._bytes_to_bitstring` (compression.py
lines 182-187): 8 bits per byte, MSB-first. -/
def bytesToBitstring (data : List ℕ) : List Bool :=
  data.flatMap fun byte => (List.range 8).map fun j => byte.testBit (7 - j)

/-- Embedding of `HuffmanCompressor._create_header` (compression.py lines
189-203): unique-byte count, then (byte, 4-byte big-endian frequency) pairs. -/
def createHeader (freqs : List (ℕ × ℕ)) : List ℕ :=
  freqs.length :: freqs.flatMap fun p => p.1 :: beBytes4 p.2

/-- Embedding of `HuffmanCompressor.compress` (compression.py lines 42-90).
The `except` branch returns the input unchanged; it is reached on the
`bytearray.append` / `int.to_bytes` overflows (256 distinct bytes, or a
frequency of at least `2^32`); a `KeyError` on the codes dict cannot occur
but is embedded faithfully via the `Option` lookup. -/
def compress (data : List ℕ) : List ℕ :=
  if data = [] then []
  else
    let freqs := counterItems data
    let root := buildTree freqs
    let codes := generateCodes root []
    match data.mapM fun b => codes.lookup b with
    | none => data
    | some pieces =>
      let compressed := bitstringToBytes pieces.flatten
      if 256 ≤ freqs.length then data
      else if freqs.any fun p => 2 ^ 32 ≤ p.2 then data
      else createHeader freqs ++ compressed

/-- Counter insert-or-update used by `_extract_header`: a repeated byte
overwrites its count in place, a new byte is appended. -/
def counterSet (acc : List (ℕ × ℕ)) (c f : ℕ) : List (ℕ × ℕ) :=
  if acc.any (fun p => p.1 = c) then acc.map fun p => if p.1 = c then (p.1, f) else p
  else acc ++ [(c, f)]

/-- Embedding of `HuffmanCompressor._extract_header` (compression.py lines
205-221); `none` is the `IndexError` on a truncated header. -/
def extractHeader (data : List ℕ) : Option (List (ℕ × ℕ) × List ℕ) :=
  let numUnique := data.getD 0 0
  let headerSize := 1 + numUnique * 5
  if (List.range numUnique).any (fun k => data.length ≤ 1 + 5 * k) then none
  else
    let freqs := (List.range numUnique).foldl
      (fun acc k => counterSet acc (data.getD (1 + 5 * k) 0) (beVal (pySlice data (2 + 5 * k) (6 + 5 * k))))
      []
    some (freqs, data.drop headerSize)

/-- Bit-consuming decode walk of `HuffmanCompressor.decompress` (compression.py
lines 116-127): descend for each bit, emit and restart at the root whenever a
node with a `char` is reached; stepping onto a `None` child raises
(`AttributeError`), embedded as `none`. -/
def decodeWalk (root : HNode) (cur : HNode) : List Bool → Option (List ℕ)
  | [] => some []
  | b :: rest =>
    match (match cur with
           | .null => HNode.null
           | .mk _ _ l r => if b then r else l) with
    | .null => none
    | .mk (some c) _ _ _ => (decodeWalk root root rest).map fun tl => c :: tl
    | .mk none f l r => decodeWalk root (.mk none f l r) rest

/-- Embedding of `HuffmanCompressor.decompress` (compression.py lines 92-136):
parse the header, rebuild the tree, decode the bit stream; `none` covers every
raised exception (truncated header, walking off the tree). -/
def decompress (data : List ℕ) : Option (List ℕ) :=
  if data = [] then some []
  else
    match extractHeader data with
    | none => none
    | some (freqs, compressedData) =>
      let root := buildTree freqs
      decodeWalk root root (bytesToBitstring compressedData)

/-!
## Confidentiality envelope (`src/soniclink/encryption.py`)

`CryptoManager.encrypt` draws a fresh 32-byte AES key and 16-byte IV, CBC
encrypts the PKCS#7-padded plaintext, wraps the AES key with RSA-OAEP, and
emits `[len(wrapped):2 BE][wrapped][iv][ciphertext]`; `decrypt` inverts.
The AES-CBC and RSA-OAEP primitives live in the PyCryptodome library, not in
this repository, so they are abstracted as function parameters (`aesEnc`,
`aesDec`, `rsaWrap`, `rsaUnwrap`); theorems state the library's contracts
(inverse, length preservation) as hypotheses. The random key and IV are
explicit arguments. PKCS#7 padding is embedded from
`Crypto.Util.Padding.pad`/`unpad`.
-/

/-- Embedding of `Crypto.Util.Padding.pad(data, 16)` (PKCS#7): append
`16 - len % 16` copies of that same value. -/
def pkcs7pad (data : List ℕ) : List ℕ :=
  let p := 16 - data.length % 16
  data ++ List.replicate p p

/-- Embedding of `Crypto.Util.Padding.unpad(data, 16)` (PKCS#7); `none` is
the `ValueError` on empty input, non-multiple length, or a bad pad. -/
def pkcs7unpad (data : List ℕ) : Option (List ℕ) :=
  if data.length = 0 then none
  else if data.length % 16 ≠ 0 then none
  else
    let p := data.getD (data.length - 1) 0
    if p < 1 ∨ min 16 data.length < p then none
    else if data.drop (data.length - p) ≠ List.replicate p p then none
    else some (data.take (data.length - p))

/-- Python `len(x).to_bytes(2, 'big')`; `none` is the `OverflowError`. -/
def beBytes2 (n : ℕ) : Option (List ℕ) :=
  if n < 65536 then some [n / 256, n % 256] else none

/-- Embedding of `CryptoManager.encrypt` (encryption.py lines 124-165).
`aesEnc key iv plaintext` abstracts `AES.new(key, MODE_CBC, iv).encrypt`;
`rsaWrap pub key` abstracts `PKCS1_OAEP.new(RSA.import_key(pub)).encrypt`;
`aesKey` and `iv` stand for the two `get_random_bytes` draws. `none` is a
raised exception (the method re-raises on failure). -/
def encrypt (aesEnc : List ℕ → List ℕ → List ℕ → List ℕ)
    (rsaWrap : List ℕ → List ℕ → List ℕ)
    (recipientPublicKey aesKey iv data : List ℕ) : Option (List ℕ) :=
  let paddedData := pkcs7pad data
  let encryptedData := aesEnc aesKey iv paddedData
  let encryptedKey := rsaWrap recipientPublicKey aesKey
  match beBytes2 encryptedKey.length with
  | none => none
  | some lenBytes => some (lenBytes ++ encryptedKey ++ iv ++ encryptedData)

/-- Embedding of `CryptoManager.decrypt` (encryption.py lines 167-200).
`rsaUnwrap priv wrapped` abstracts the OAEP unwrap (`none` on failure);
`aesDec` abstracts CBC decryption. The final `none` covers the padding
`ValueError`. -/
def decrypt (aesDec : List ℕ → List ℕ → List ℕ → List ℕ)
    (rsaUnwrap : List ℕ → List ℕ → Option (List ℕ))
    (privateKey encryptedData : List ℕ) : Option (List ℕ) :=
  let keyLength := beVal (encryptedData.take 2)
  let encryptedKey := pySlice encryptedData 2 (2 + keyLength)
  let iv := pySlice encryptedData (2 + keyLength) (2 + keyLength + 16)
  let dataPart := encryptedData.drop (2 + keyLength + 16)
  match rsaUnwrap privateKey encryptedKey with
  | none => none
  | some aesKey => pkcs7unpad (aesDec aesKey iv dataPart)

/-!
## Audio boundary (`src/soniclink/audio.py`)

`AudioManager.transmit` normalizes the waveform with `_normalize_audio` and
quantizes it to 16-bit PCM (`(waveform * 32767).astype(np.int16)`) before
chunked playback. Samples are modelled as exact rationals; the float literal
`0.8` is read as `4/5`.
-/

/-- Embedding of `np.max` on a list of rationals. NumPy raises on an empty
array; the claims about normalization are stated for nonempty waveforms. -/
def npMax : List ℚ → ℚ
  | [] => 0
  | x :: xs => xs.foldl max x

/-- Embedding of `AudioManager._normalize_audio` (audio.py lines 359-365):
scale so the peak of `|waveform|` becomes `0.8`, leaving a zero-peak
waveform unchanged. -/
def normalizeAudio (w : List ℚ) : List ℚ :=
  let maxVal := npMax (w.map fun x => |x|)
  if 0 < maxVal then w.map fun x => x * (4 / 5) / maxVal else w

/-- Float-to-integer conversion of `astype(np.int16)`: truncation toward
zero (values produced by `transmit` fit in 16 bits, so no wrapping occurs). -/
def ratTrunc (q : ℚ) : ℤ :=
  if 0 ≤ q then ⌊q⌋ else -⌊-q⌋

/-- Embedding of the sample computation of `AudioManager.transmit` (audio.py
lines 132-137): `(self._normalize_audio(waveform) * 32767).astype(np.int16)`. -/
def transmitSamples (w : List ℚ) : List ℤ :=
  (normalizeAudio w).map fun x => ratTrunc (x * 32767)

/-!
## OFDM modulation and demodulation (`src/soniclink/modulation.py`)

Fixed parameters with the default `Config` (utils.py): `sample_rate = 48000`,
so `samples_per_symbol = int(0.01 * 48000) = 480`; `carrier_count = 64`;
`cyclic_prefix_length = 16`.

The start marker is `sin(2π·17500·n/48000)` over 4800 samples. Its sample
values are transcendental, so the frame-detection functions are parameterized
by the marker sample list (`marker`); every theorem below holds for all
markers, hence in particular for the 17.5 kHz tone. The end marker is the
negated start marker, exactly as in `_add_markers` / `_extract_data_portion`.
-/

/-- Sliding dot product of a window of `a` against `v`. -/
def dot (x y : List ℚ) : ℚ :=
  (List.zipWith (fun a b => a * b) x y).sum

/-- Embedding of `np.correlate(a, v, mode='valid')` on real inputs: `none` is
the `ValueError` on an empty argument; when `v` is longer than `a`, NumPy
computes the swapped correlation and reverses it (conjugation is the identity
on real data). -/
def correlateValid (a v : List ℚ) : Option (List ℚ) :=
  if a = [] ∨ v = [] then none
  else if v.length ≤ a.length then
    some ((List.range (a.length - v.length + 1)).map fun k => dot (pySlice a k (k + v.length)) v)
  else
    some (((List.range (v.length - a.length + 1)).map fun k => dot (pySlice v k (k + a.length)) a).reverse)

/-- Embedding of `OFDMDemodulator._extract_data_portion` (modulation.py lines
293-328), with the start-marker sample list as a parameter. `none` covers the
`ValueError` from correlating an empty array and the explicit
`data_end <= data_start` failure; the `start_idx < 0` / `end_idx < 0` checks
are embedded literally (they never fire, since `np.argmax` is nonnegative). -/
def extractDataPortion (marker audio : List ℚ) : Option (List ℚ) :=
  let markerSamples := marker.length
  match correlateValid audio marker with
  | none => none
  | some corr1 =>
    let startIdx := argmaxFirst (corr1.map fun x => |x|)
    if startIdx < 0 then none
    else
      match correlateValid (audio.drop startIdx) (marker.map fun x => -x) with
      | none => none
      | some corr2 =>
        let endIdx := argmaxFirst (corr2.map fun x => |x|)
        if endIdx < 0 then none
        else
          let dataStart := startIdx + markerSamples
          let dataEnd := startIdx + endIdx
          if dataEnd ≤ dataStart then none
          else some (pySlice audio dataStart dataEnd)

/-- Modelled from the spec (§4.5 step 1), for comparison with the code's
`_extract_data_portion`: "The data region begins at that peak +
`marker_length`. Cross-correlate the tail (from data start onward) with
`end_marker` (= `−start_marker`); the peak locates the data end. If either
peak is missing or data end ≤ data start, fail with `NoFrame`." -/
def extractDataPortionSpec (marker audio : List ℚ) : Option (List ℚ) :=
  let markerSamples := marker.length
  match correlateValid audio marker with
  | none => none
  | some corr1 =>
    let startIdx := argmaxFirst (corr1.map fun x => |x|)
    let dataStart := startIdx + markerSamples
    match correlateValid (audio.drop dataStart) (marker.map fun x => -x) with
    | none => none
    | some corr2 =>
      let endIdx := argmaxFirst (corr2.map fun x => |x|)
      let dataEnd := dataStart + endIdx
      if dataEnd ≤ dataStart then none
      else some (pySlice audio dataStart dataEnd)

/-- Level list of `_create_qam_constellation`:
`np.array([-7, -5, -3, -1, 1, 3, 5, 7]) / np.sqrt(42)`. -/
noncomputable def qamLevels : List ℝ :=
  ([-7, -5, -3, -1, 1, 3, 5, 7] : List ℝ).map fun x => x / Real.sqrt 42

/-- Embedding of `OFDMDemodulator._create_qam_constellation` (modulation.py
lines 281-291): the row-major 8×8 grid `complex(real, imag)` over the level
list, giving index `real_idx * 8 + imag_idx`. -/
noncomputable def qamConstellation : List ℂ :=
  qamLevels.flatMap fun re => qamLevels.map fun im => Complex.mk re im

/-- Nearest-constellation-point search of `_qam_symbols_to_bits`:
`np.argmin(np.abs(self.qam_constellation - symbol))`. -/
noncomputable def closestIdx (s : ℂ) : ℕ :=
  argminFirst (qamConstellation.map fun c => Complex.abs (c - s))

/-- Embedding of `OFDMDemodulator._qam_symbols_to_bits` (modulation.py lines
372-386): each received point contributes the 6 MSB-first bits of its nearest
constellation index. -/
noncomputable def qamSymbolsToBits (symbols : List ℂ) : List ℕ :=
  symbols.flatMap fun s => (List.range 6).map fun i => (closestIdx s >>> (5 - i)) &&& 1

/-- The 6-bit MSB-first index computation of `OFDMModulator._bits_to_qam_symbols`
(modulation.py line 132): `sum(bit * (2 ** (5 - j)) ...)`. -/
def qamIndexOfBits (bits : List ℕ) : ℕ :=
  (bits.enum.map fun p => p.2 * 2 ^ (5 - p.1)).sum

/-- Embedding of `np.fft.fft` as the ideal discrete Fourier transform of a
real-valued sample list. Only its length is relevant to the claims. -/
noncomputable def npFft (x : List ℚ) : List ℂ :=
  (List.range x.length).map fun k : ℕ =>
    ∑ n ∈ Finset.range x.length,
      ((x.getD n 0 : ℚ) : ℂ) * Complex.exp (-2 * Real.pi * Complex.I * (k : ℂ) * (n : ℂ) / (x.length : ℂ))

/-- Embedding of `OFDMDemodulator._extract_ofdm_symbol` (modulation.py lines
344-360): strip the 16-sample cyclic prefix, FFT, keep the first 64 bins.
The `except` branch (`none`) guards NumPy runtime failures only and is never
taken on list inputs. -/
noncomputable def extractOfdmSymbol (symbolData : List ℚ) : Option (List ℂ) :=
  some ((npFft (symbolData.drop 16)).take 64)

/-- Embedding of `OFDMDemodulator._extract_ofdm_symbols` (modulation.py lines
330-342): walk the data portion in full 480-sample strides, collecting the
successfully extracted symbols. -/
noncomputable def extractOfdmSymbols (dataPortion : List ℚ) : List (List ℂ) :=
  ((List.range (dataPortion.length / 480)).map fun k =>
    pySlice dataPortion (480 * k) (480 * k + 480)).filterMap extractOfdmSymbol

/-- Embedding of `OFDMDemodulator._demodulate_symbols` (modulation.py lines
362-370). -/
noncomputable def demodulateSymbols (symbols : List (List ℂ)) : List ℕ :=
  symbols.flatMap qamSymbolsToBits

/-- Embedding of `OFDMDemodulator.demodulate` (modulation.py lines 237-279),
parameterized by the start-marker samples and by the Reed-Solomon decoder
`rsDecode` (the `reedsolo` library's `RSCodec(255, 223).decode`, abstracted;
`none` is a raised `ReedSolomonError`). On a decoder exception the raw bytes
are returned; every other failure yields `none`. -/
noncomputable def demodulate (rsDecode : List ℕ → Option (List ℕ))
    (marker audio : List ℚ) : Option (List ℕ) :=
  match extractDataPortion marker audio with
  | none => none
  | some dataPortion =>
    match extractOfdmSymbols dataPortion with
    | [] => none
    | s :: ss =>
      match demodulateSymbols (s :: ss) with
      | [] => none
      | b :: bs =>
        match bitsToBytes (b :: bs) with
        | none => none
        | some [] => none
        | some (d :: ds) =>
          match rsDecode (d :: ds) with
          | none => some (d :: ds)
          | some decoded => some decoded

/-!
## Properties of the argmax/argmin workers
-/

theorem argmaxGo_of_le {α : Type} [LinearOrder α] (xs : List α) (best : α) (bi i : ℕ)
    (h : ∀ y ∈ xs, y ≤ best) : argmaxGo best bi i xs = bi := by
  induction xs generalizing i with
  | nil => rfl
  | cons x xs ih =>
    rw [argmaxGo, if_neg (not_lt.mpr (h x (List.mem_cons_self x xs)))]
    exact ih _ fun y hy => h y (List.mem_cons_of_mem _ hy)

theorem argmaxGo_cases {α : Type} [LinearOrder α] :
    ∀ (xs : List α) (best : α) (bi i : ℕ),
      (argmaxGo best bi i xs = bi ∧ ∀ y ∈ xs, y ≤ best) ∨
      (∃ k v tail, argmaxGo best bi i xs = i + k ∧ xs.drop k = v :: tail ∧ best ≤ v ∧
        ∀ y ∈ tail, y ≤ v) := by
  intro xs
  induction xs with
  | nil => exact fun best bi i => Or.inl ⟨rfl, by simp⟩
  | cons z zs ih =>
    intro best bi i
    by_cases hz : best < z
    · rw [argmaxGo, if_pos hz]
      rcases ih z i (i + 1) with ⟨heq, hle⟩ | ⟨k, v, tail, heq, hdrop, hbv, htail⟩
      · exact Or.inr ⟨0, z, zs, by simpa using heq, by simp, le_of_lt hz, hle⟩
      · refine Or.inr ⟨k + 1, v, tail, ?_, by simpa using hdrop,
          le_of_lt (lt_of_lt_of_le hz hbv), htail⟩
        rw [heq]; omega
    · rw [argmaxGo, if_neg hz]
      rcases ih best bi (i + 1) with ⟨heq, hle⟩ | ⟨k, v, tail, heq, hdrop, hbv, htail⟩
      · refine Or.inl ⟨heq, fun y hy => ?_⟩
        rcases List.mem_cons.mp hy with rfl | hy
        · exact not_lt.mp hz
        · exact hle y hy
      · refine Or.inr ⟨k + 1, v, tail, ?_, by simpa using hdrop, hbv, htail⟩
        rw [heq]; omega

theorem argmaxFirst_drop {α : Type} [LinearOrder α] (L : List α) (hL : L ≠ []) :
    ∃ v tail, L.drop (argmaxFirst L) = v :: tail ∧ ∀ y ∈ tail, y ≤ v := by
  match L with
  | x :: xs =>
    rw [argmaxFirst]
    rcases argmaxGo_cases xs x 0 1 with ⟨heq, hle⟩ | ⟨k, v, tail, heq, hdrop, _, htail⟩
    · exact ⟨x, xs, by simp [heq], hle⟩
    · refine ⟨v, tail, ?_, htail⟩
      rw [heq, Nat.add_comm 1 k, List.drop_succ_cons, hdrop]

theorem argmaxFirst_lt_length {α : Type} [LinearOrder α] (L : List α) (hL : L ≠ []) :
    argmaxFirst L < L.length := by
  obtain ⟨v, tail, hd, -⟩ := argmaxFirst_drop L hL
  by_contra h
  rw [List.drop_eq_nil_of_le (le_of_not_lt h)] at hd
  exact List.cons_ne_nil v tail hd.symm

theorem argmaxFirst_cons_of_le {α : Type} [LinearOrder α] (x : α) (xs : List α)
    (h : ∀ y ∈ xs, y ≤ x) : argmaxFirst (x :: xs) = 0 :=
  argmaxGo_of_le xs x 0 1 h

/-!
## Frame detection always fails

In `_extract_data_portion` the end-marker correlation is taken over
`audio_data[start_idx:]` — the tail starting at the start-marker *peak*, not
at the data start. Since the end marker is the negated start marker,
`|corr2[j]| = |corr1[start_idx + j]|`, so the end-marker peak is found at
offset 0 and `data_end = start_idx ≤ data_start`: extraction fails on every
input (and `demodulate` therefore always returns `None`).
-/

theorem dot_neg_right (x y : List ℚ) : dot x (y.map fun t => -t) = -dot x y := by
  induction x generalizing y with
  | nil => simp [dot]
  | cons a as ih =>
    cases y with
    | nil => simp [dot]
    | cons b bs =>
      have := ih bs
      simp only [dot, List.map_cons, List.zipWith_cons_cons, List.sum_cons] at this ⊢
      rw [this]; ring

theorem pySlice_drop {α : Type} (a : List α) (s k n : ℕ) :
    pySlice (a.drop s) k (k + n) = pySlice a (s + k) (s + k + n) := by
  simp [pySlice, List.drop_drop, Nat.add_comm s k]

/-- The correlation entries of the code's end-marker search: correlating
`audio[s:]` against the negated marker yields exactly the negated tail of the
start-marker correlation. -/
theorem correlate_drop_neg (m a : List ℚ) (hm : m ≠ []) (hle : m.length ≤ a.length) :
    ∃ L, correlateValid a m = some L ∧ L.length = a.length - m.length + 1 ∧
      ∀ s, s < L.length →
        correlateValid (a.drop s) (m.map fun t => -t) = some ((L.drop s).map fun t => -t) := by
  have hm1 : 1 ≤ m.length := List.length_pos.mpr hm
  have ha : a ≠ [] := by
    intro h
    subst h
    simp only [List.length_nil, Nat.le_zero, List.length_eq_zero] at hle
    exact hm hle
  refine ⟨(List.range (a.length - m.length + 1)).map
      fun k => dot (pySlice a k (k + m.length)) m, ?_, by simp, ?_⟩
  · rw [correlateValid, if_neg (by simp [ha, hm]), if_pos hle]
  · intro s hs
    simp only [List.length_map, List.length_range] at hs
    have hsa : s < a.length := by omega
    have hlen : (m.map fun t => -t).length ≤ (a.drop s).length := by
      simp only [List.length_map, List.length_drop]; omega
    rw [correlateValid, if_neg (by
      simp only [not_or]
      exact ⟨by simp [List.drop_eq_nil_iff, not_le, hsa], by simp [hm]⟩), if_pos hlen]
    congr 1
    have hrange : List.range (a.length - m.length + 1)
        = List.range s ++ (List.range (a.length - m.length + 1 - s)).map (s + ·) := by
      rw [← List.range_add]; congr 1; omega
    rw [← List.map_drop, hrange, List.drop_left' (by simp), List.map_map, List.map_map]
    have hn : (a.drop s).length - (m.map fun t => -t).length + 1
        = a.length - m.length + 1 - s := by
      simp only [List.length_map, List.length_drop]; omega
    rw [hn]
    refine List.map_congr_left fun k hk => ?_
    simp only [Function.comp_apply, List.length_map]
    rw [pySlice_drop, dot_neg_right]

theorem correlateValid_swap (a v : List ℚ) (ha : a ≠ []) (hv : v ≠ [])
    (h : a.length < v.length) :
    ∃ L, correlateValid a v = some L ∧ L.length = v.length - a.length + 1 :=
  ⟨((List.range (v.length - a.length + 1)).map fun k => dot (pySlice v k (k + a.length)) a).reverse,
   by rw [correlateValid, if_neg (by simp [ha, hv]), if_neg (not_le.mpr h)], by simp⟩

/-- Frame detection always fails: because the end-marker search starts at the
start-marker peak and the end marker is the negated start marker, the located
data end never exceeds the data start, for any marker and any recording. -/
theorem extractDataPortion_eq_none (marker audio : List ℚ) :
    extractDataPortion marker audio = none := by
  by_cases hm : marker = []
  · rw [extractDataPortion, hm]
    have hc : correlateValid audio [] = none := by
      rw [correlateValid, if_pos (Or.inr rfl)]
    rw [hc]
  by_cases ha : audio = []
  · rw [extractDataPortion, ha]
    have hc : correlateValid [] marker = none := by
      rw [correlateValid, if_pos (Or.inl rfl)]
    rw [hc]
  by_cases hle : marker.length ≤ audio.length
  · -- the in-range case: the end peak is found at offset 0 from the start peak
    obtain ⟨L, hL, hLlen, hdropC⟩ := correlate_drop_neg marker audio hm hle
    have hLne : L ≠ [] := by
      intro h
      rw [h] at hLlen
      simp at hLlen
    have habs : (L.map fun x => |x|) ≠ [] := by simpa using hLne
    rw [extractDataPortion, hL]
    simp only
    have hs : argmaxFirst (L.map fun x => |x|) < L.length := by
      have := argmaxFirst_lt_length _ habs
      simpa using this
    rw [hdropC _ hs]
    simp only
    obtain ⟨v, tail, hd, htail⟩ := argmaxFirst_drop (L.map fun x => |x|) habs
    have habs2 : ((L.drop (argmaxFirst (L.map fun x => |x|))).map fun t => -t).map
        (fun x => |x|) = v :: tail := by
      rw [List.map_map, ← hd, List.map_drop]
      exact congrArg _ (List.map_congr_left fun t _ => abs_neg t)
    rw [habs2, argmaxFirst_cons_of_le v tail htail]
    simp
  · -- the degenerate case: the recording is shorter than the marker
    push_neg at hle
    obtain ⟨L, hL, hLlen⟩ := correlateValid_swap audio marker ha hm hle
    rw [extractDataPortion, hL]
    simp only
    by_cases hdropnil : audio.drop (argmaxFirst (L.map fun x => |x|)) = []
    · rw [hdropnil]
      have hc : correlateValid [] (marker.map fun x => -x) = none := by
        rw [correlateValid, if_pos (Or.inl rfl)]
      rw [hc]
      simp
    · have hsa : argmaxFirst (L.map fun x => |x|) < audio.length := by
        rw [List.drop_eq_nil_iff, not_le] at hdropnil
        exact hdropnil
      have hlt2 : (audio.drop (argmaxFirst (L.map fun x => |x|))).length
          < (marker.map fun x => -x).length := by
        simp only [List.length_map, List.length_drop]
        omega
      obtain ⟨M, hM, hMlen⟩ := correlateValid_swap _ _ hdropnil (by simp [hm])
        hlt2
      rw [hM]
      simp only
      have hMne : (M.map fun x => |x|) ≠ [] := by
        have : M ≠ [] := by
          intro h
          rw [h] at hMlen
          simp at hMlen
        simpa using this
      have hend : argmaxFirst (M.map fun x => |x|) < M.length := by
        have := argmaxFirst_lt_length _ hMne
        simpa using this
      rw [hMlen] at hend
      simp only [List.length_map, List.length_drop] at hend
      have hbound : argmaxFirst (M.map fun x => |x|) ≤ marker.length :=
        le_trans (by omega) (Nat.sub_le marker.length (audio.length - argmaxFirst (L.map fun x => |x|)))
      rw [if_pos (Nat.add_le_add_left hbound _)]
      simp

/-- The demodulator inherits the frame-detection failure: it returns `None`
on every recording, for any marker and any Reed-Solomon decoder. -/
theorem demodulate_eq_none (rsDecode : List ℕ → Option (List ℕ)) (marker audio : List ℚ) :
    demodulate rsDecode marker audio = none := by
  rw [demodulate, extractDataPortion_eq_none]

/-!
## Claims C2, C3, C6: frame detection and demodulation failure behavior
-/

/-- C2: the claim (mirroring the spec) says the end-marker search runs over
the tail from the *data start*; the code correlates from the *marker peak*.
At the concrete recording `[5, 1, -2]` with marker `[1]`, the code fails with
no frame while the spec's procedure extracts the data region `[1]`: the code
diverges from the claimed behavior. -/
theorem c2_end_marker_search_diverges_from_spec :
    extractDataPortion [1] [5, 1, -2] = none ∧
      extractDataPortionSpec [1] [5, 1, -2] = some [1] := by
  refine ⟨extractDataPortion_eq_none _ _, ?_⟩
  have h1 : correlateValid [5, 1, -2] [1] = some [5, 1, -2] := by
    rw [correlateValid, if_neg (by simp), if_pos (by simp)]
    norm_num [dot, pySlice, List.range_succ]
  have h2 : argmaxFirst (([5, 1, -2] : List ℚ).map fun x => |x|) = 0 := by
    norm_num [argmaxFirst, argmaxGo]
  rw [extractDataPortionSpec, h1]
  simp only
  rw [h2]
  simp only [List.length_cons, List.length_nil, Nat.zero_add, List.drop_succ_cons,
    List.drop_zero]
  have h3 : correlateValid [1, -2] (([1] : List ℚ).map fun x => -x) = some [-1, 2] := by
    rw [correlateValid, if_neg (by simp), if_pos (by simp)]
    norm_num [dot, pySlice, List.range_succ]
  rw [h3]
  simp only
  have h4 : argmaxFirst (([-1, 2] : List ℚ).map fun x => |x|) = 1 := by
    norm_num [argmaxFirst, argmaxGo]
  rw [h4]
  norm_num [pySlice]

/-- C3 counterexample: a waveform that is exactly the start marker followed by
the end marker (empty data region in between) is not accepted with empty
bytes — the demodulator returns `None`. -/
theorem c3_empty_payload_counterexample :
    demodulate (fun _ => none) [1] [1, -1] ≠ some [] := by
  rw [demodulate_eq_none]
  exact Option.noConfusion

/-- C3 amended: on a waveform consisting of the start marker immediately
followed by the end marker (an empty marker-delimited data region), the
demodulator does not return empty bytes; it fails and returns `None`. -/
theorem c3_empty_data_region_returns_none
    (rsDecode : List ℕ → Option (List ℕ)) (marker audio : List ℚ)
    (_haudio : audio = marker ++ (marker.map fun x => -x)) :
    demodulate rsDecode marker audio = none :=
  demodulate_eq_none rsDecode marker audio

theorem c3_empty_data_region_returns_none_witness :
    ([1, -1] : List ℚ) = [1] ++ (([1] : List ℚ).map fun x => -x) ∧
      demodulate (fun _ => some []) [1] [1, -1] = none :=
  ⟨by norm_num, c3_empty_data_region_returns_none (fun _ => some []) [1] [1, -1] (by norm_num)⟩

/-- C6: the FEC-failure fallback (returning the raw received bytes when
Reed-Solomon decoding raises) is dead code: demodulation fails before ever
reaching the FEC decoder, returning `None` for every recording, whatever the
decoder does. -/
theorem c6_fec_fallback_unreachable (rsDecode : List ℕ → Option (List ℕ))
    (marker audio : List ℚ) : demodulate rsDecode marker audio = none :=
  demodulate_eq_none rsDecode marker audio

/-!
## Claim C9: every extracted OFDM symbol has 64 bins, so bit counts are
always a multiple of 8
-/

theorem extractOfdmSymbols_eq (dp : List ℚ) :
    extractOfdmSymbols dp = (List.range (dp.length / 480)).map
      fun k => (npFft ((pySlice dp (480 * k) (480 * k + 480)).drop 16)).take 64 := by
  rw [extractOfdmSymbols, List.filterMap_map]
  exact List.filterMap_eq_map _ ▸ rfl

theorem npFft_length (x : List ℚ) : (npFft x).length = x.length := by
  rw [npFft, List.length_map, List.length_range]

theorem qamSymbolsToBits_length (s : List ℂ) : (qamSymbolsToBits s).length = 6 * s.length := by
  induction s with
  | nil => rfl
  | cons c cs ih =>
    rw [qamSymbolsToBits, List.flatMap_cons, List.length_append]
    rw [qamSymbolsToBits] at ih
    rw [ih]
    simp only [List.length_map, List.length_range, List.length_cons]
    omega

theorem extractOfdmSymbols_bins (dp : List ℚ) :
    ∀ s ∈ extractOfdmSymbols dp, s.length = 64 := by
  intro s hs
  rw [extractOfdmSymbols_eq] at hs
  obtain ⟨k, hk, rfl⟩ := List.mem_map.mp hs
  rw [List.mem_range] at hk
  have hchunk : (pySlice dp (480 * k) (480 * k + 480)).length = 480 := by
    have h1 : (k + 1) * 480 ≤ dp.length :=
      (Nat.le_div_iff_mul_le (by norm_num)).mp (Nat.succ_le_of_lt hk)
    simp only [pySlice, List.length_take, List.length_drop]
    omega
  rw [List.length_take, npFft_length, List.length_drop, hchunk]
  omega

/-- C9: within the demodulator's own pipeline, every extracted OFDM symbol
yields exactly 64 frequency bins and hence 384 bits; the assembled bit list
always has a length that is a multiple of 8, so the `_bits_to_bytes` failure
branch for a non-multiple-of-8 bit count can never fire. -/
theorem c9_symbol_pipeline_bit_count (dp : List ℚ) :
    (∀ s ∈ extractOfdmSymbols dp, s.length = 64) ∧
      (demodulateSymbols (extractOfdmSymbols dp)).length
        = 384 * (extractOfdmSymbols dp).length ∧
      bitsToBytes (demodulateSymbols (extractOfdmSymbols dp)) ≠ none := by
  refine ⟨extractOfdmSymbols_bins dp, ?_⟩
  have hlen : (demodulateSymbols (extractOfdmSymbols dp)).length
      = 384 * (extractOfdmSymbols dp).length := by
    generalize hsym : extractOfdmSymbols dp = symbols
    have hbins := extractOfdmSymbols_bins dp
    rw [hsym] at hbins
    clear hsym
    induction symbols with
    | nil => rfl
    | cons s ss ih =>
      rw [demodulateSymbols, List.flatMap_cons, List.length_append,
        qamSymbolsToBits_length, hbins s (List.mem_cons_self s ss)]
      rw [demodulateSymbols] at ih
      rw [ih fun t ht => hbins t (List.mem_cons_of_mem s ht)]
      simp [List.length_cons, Nat.mul_succ, Nat.add_comm]
  refine ⟨hlen, ?_⟩
  have hmod : (demodulateSymbols (extractOfdmSymbols dp)).length % 8 = 0 := by
    rw [hlen, show 384 * (extractOfdmSymbols dp).length
      = 8 * (48 * (extractOfdmSymbols dp).length) by ring]
    exact Nat.mul_mod_right 8 _
  rw [bitsToBytes, if_neg (by simp [hmod])]
  exact Option.noConfusion

/-!
## Claim C10: `_bytes_to_bits` and `_bits_to_bytes` are mutually inverse
-/

set_option maxRecDepth 4000 in
theorem byteVal_bits : ∀ b < 256, byteVal ((List.range 8).map fun i => (b >>> (7 - i)) &&& 1) = b := by
  decide

theorem packChunk (s t : List ℕ) (hs : s.length = 8) :
    (List.range ((s ++ t).length / 8)).map (fun k => byteVal (pySlice (s ++ t) (8 * k) (8 * k + 8)))
      = byteVal s
        :: (List.range (t.length / 8)).map fun k => byteVal (pySlice t (8 * k) (8 * k + 8)) := by
  have hlen : (s ++ t).length / 8 = t.length / 8 + 1 := by
    rw [List.length_append, hs, Nat.add_comm, Nat.add_div_right _ (by norm_num)]
  rw [hlen, List.range_succ_eq_map, List.map_cons]
  congr 1
  · simp only [Nat.mul_zero, Nat.zero_add, pySlice, List.drop_zero, Nat.sub_zero]
    rw [← hs, List.take_left]
  · rw [List.map_map]
    refine List.map_congr_left fun k _ => ?_
    simp only [Function.comp_apply]
    congr 1
    simp only [pySlice]
    have h1 : 8 * Nat.succ k = s.length + 8 * k := by rw [hs]; omega
    rw [h1, List.drop_append]
    congr 1
    omega

theorem bytesToBits_length (data : List ℕ) : (bytesToBits data).length = 8 * data.length := by
  induction data with
  | nil => rfl
  | cons b rest ih =>
    rw [bytesToBits, List.flatMap_cons, List.length_append]
    rw [bytesToBits] at ih
    rw [ih]
    simp only [List.length_map, List.length_range, List.length_cons]
    omega

theorem packBits (data : List ℕ) (h : ∀ b ∈ data, b < 256) :
    (List.range ((bytesToBits data).length / 8)).map
      (fun k => byteVal (pySlice (bytesToBits data) (8 * k) (8 * k + 8))) = data := by
  induction data with
  | nil => simp [bytesToBits]
  | cons b rest ih =>
    have hsplit : bytesToBits (b :: rest)
        = ((List.range 8).map fun i => (b >>> (7 - i)) &&& 1) ++ bytesToBits rest := by
      rw [bytesToBits, bytesToBits, List.flatMap_cons]
    rw [hsplit, packChunk _ _ (by simp)]
    rw [byteVal_bits b (h b (List.mem_cons_self b rest)),
      ih fun x hx => h x (List.mem_cons_of_mem b hx)]

/-- C10: expanding a byte sequence MSB-first with the modulator's
`_bytes_to_bits` and repacking it with the demodulator's `_bits_to_bytes`
returns the original bytes. -/
theorem c10_bits_bytes_roundtrip (data : List ℕ) (h : ∀ b ∈ data, b < 256) :
    bitsToBytes (bytesToBits data) = some data := by
  rw [bitsToBytes, if_neg (by rw [bytesToBits_length]; simp [Nat.mul_mod_right])]
  exact congrArg some (packBits data h)

theorem c10_bits_bytes_roundtrip_witness :
    (∀ b ∈ [72, 105, 255, 0], b < 256) ∧
      bitsToBytes (bytesToBits [72, 105, 255, 0]) = some [72, 105, 255, 0] :=
  ⟨by decide, c10_bits_bytes_roundtrip [72, 105, 255, 0] (by decide)⟩

/-!
## Claim C4: demapping an exact constellation point recovers its index
-/

theorem argminGo_of_le {α : Type} [LinearOrder α] (xs : List α) (best : α) (bi i : ℕ)
    (h : ∀ y ∈ xs, best ≤ y) : argminGo best bi i xs = bi := by
  induction xs generalizing i with
  | nil => rfl
  | cons x xs ih =>
    rw [argminGo, if_neg (not_lt.mpr (h x (List.mem_cons_self x xs)))]
    exact ih _ fun y hy => h y (List.mem_cons_of_mem _ hy)

theorem getD_of_mem {α : Type} (l : List α) (y : α) (d : α) (hy : y ∈ l) :
    ∃ j, j < l.length ∧ l.getD j d = y := by
  obtain ⟨j, hj, hval⟩ := List.mem_iff_getElem.mp hy
  exact ⟨j, hj, by rw [List.getD_eq_getElem l d hj, hval]⟩

theorem argminGo_eq {α : Type} [LinearOrder α] (d : α) :
    ∀ (xs : List α) (best : α) (bi i k : ℕ),
      k < xs.length → xs.getD k d < best →
      (∀ j, j < xs.length → xs.getD k d ≤ xs.getD j d) →
      (∀ j, j < k → xs.getD k d < xs.getD j d) →
      argminGo best bi i xs = i + k := by
  intro xs
  induction xs with
  | nil => intro best bi i k hk; simp at hk
  | cons z zs ih =>
    intro best bi i k hk hbest hmin hstrict
    match k with
    | 0 =>
      simp only [List.getD_cons_zero] at hbest hmin
      rw [argminGo, if_pos hbest, Nat.add_zero]
      refine argminGo_of_le zs z i (i + 1) fun y hy => ?_
      obtain ⟨j, hj, rfl⟩ := getD_of_mem zs y d hy
      have := hmin (j + 1) (by simpa using hj)
      simpa using this
    | k' + 1 =>
      simp only [List.getD_cons_succ] at hbest hmin hstrict ⊢
      have hk' : k' < zs.length := by simpa using hk
      have hz : zs.getD k' d < z := by
        have := hstrict 0 (Nat.succ_pos k')
        simpa using this
      have hmin' : ∀ j, j < zs.length → zs.getD k' d ≤ zs.getD j d := fun j hj => by
        have := hmin (j + 1) (by simpa using hj)
        simpa using this
      have hstrict' : ∀ j, j < k' → zs.getD k' d < zs.getD j d := fun j hj => by
        have := hstrict (j + 1) (by omega)
        simpa using this
      by_cases hbz : z < best
      · rw [argminGo, if_pos hbz, ih z i (i + 1) k' hk' hz hmin' hstrict']
        omega
      · rw [argminGo, if_neg hbz, ih best bi (i + 1) k' hk' hbest hmin' hstrict']
        omega

theorem argminFirst_eq {α : Type} [LinearOrder α] (d : α) (L : List α) (i : ℕ)
    (hi : i < L.length)
    (hmin : ∀ j, j < L.length → L.getD i d ≤ L.getD j d)
    (hstrict : ∀ j, j < i → L.getD i d < L.getD j d) :
    argminFirst L = i := by
  match L with
  | [] => simp at hi
  | x :: xs =>
    rw [argminFirst]
    match i with
    | 0 =>
      refine argminGo_of_le xs x 0 1 fun y hy => ?_
      obtain ⟨j, hj, rfl⟩ := getD_of_mem xs y d hy
      have := hmin (j + 1) (by simpa using hj)
      simpa using this
    | i' + 1 =>
      have hi' : i' < xs.length := by simpa using hi
      have hx : xs.getD i' d < x := by
        have := hstrict 0 (Nat.succ_pos i')
        simpa using this
      have hmin' : ∀ j, j < xs.length → xs.getD i' d ≤ xs.getD j d := fun j hj => by
        have := hmin (j + 1) (by simpa using hj)
        simpa using this
      have hstrict' : ∀ j, j < i' → xs.getD i' d < xs.getD j d := fun j hj => by
        have := hstrict (j + 1) (by omega)
        simpa using this
      rw [argminGo_eq d xs x 0 1 i' hi' hx hmin' hstrict']
      omega

/-- The levels of the constellation grid before the `1/√42` scaling. -/
def intLevels : List ℤ := [-7, -5, -3, -1, 1, 3, 5, 7]

theorem qamConstellation_eq : qamConstellation = (List.range 64).map
    (fun t => Complex.mk (qamLevels.getD (t / 8) 0) (qamLevels.getD (t % 8) 0)) := by
  rfl

theorem qamConstellation_length : qamConstellation.length = 64 := by
  rw [qamConstellation_eq, List.length_map, List.length_range]

theorem qamLevels_bridge : ∀ a, a < 8 →
    qamLevels.getD a 0 = ((intLevels.getD a 0 : ℤ) : ℝ) / Real.sqrt 42 := by
  intro a ha
  interval_cases a <;> norm_num [qamLevels, intLevels]

theorem intLevels_inj : ∀ a < 8, ∀ b < 8, intLevels.getD a 0 = intLevels.getD b 0 → a = b := by
  decide

theorem qamLevels_inj (a b : ℕ) (ha : a < 8) (hb : b < 8)
    (h : qamLevels.getD a 0 = qamLevels.getD b 0) : a = b := by
  rw [qamLevels_bridge a ha, qamLevels_bridge b hb] at h
  have hs : Real.sqrt 42 ≠ 0 := ne_of_gt (Real.sqrt_pos.mpr (by norm_num))
  have hcast : ((intLevels.getD a 0 : ℤ) : ℝ) = ((intLevels.getD b 0 : ℤ) : ℝ) := by
    have h' := congrArg (fun y => y * Real.sqrt 42) h
    simpa [div_mul_cancel₀, hs] using h'
  exact intLevels_inj a ha b hb (by exact_mod_cast hcast)

theorem getD_map {α β : Type} (f : α → β) (l : List α) (n : ℕ) (d : α) (d0 : β)
    (h : n < l.length) : (l.map f).getD n d0 = f (l.getD n d) := by
  rw [List.getD_eq_getElem _ _ (by simpa using h), List.getElem_map,
    List.getD_eq_getElem _ _ h]

theorem qamConstellation_getD (t : ℕ) (ht : t < 64) :
    qamConstellation.getD t 0
      = Complex.mk (qamLevels.getD (t / 8) 0) (qamLevels.getD (t % 8) 0) := by
  rw [qamConstellation_eq, getD_map _ _ _ 0 _ (by simpa using ht)]
  have hr : (List.range 64).getD t 0 = t := by
    rw [List.getD_eq_getElem _ _ (by simpa using ht), List.getElem_range]
  rw [hr]

theorem qamConstellation_inj (i j : ℕ) (hi : i < 64) (hj : j < 64)
    (h : qamConstellation.getD i 0 = qamConstellation.getD j 0) : i = j := by
  rw [qamConstellation_getD i hi, qamConstellation_getD j hj, Complex.mk.injEq] at h
  have h1 : i / 8 = j / 8 :=
    qamLevels_inj _ _ (by omega) (by omega) h.1
  have h2 : i % 8 = j % 8 :=
    qamLevels_inj _ _ (by omega) (by omega) h.2
  omega

theorem closestIdx_self (i : ℕ) (hi : i < 64) :
    closestIdx (qamConstellation.getD i 0) = i := by
  have hlen : (qamConstellation.map
      fun c => Complex.abs (c - qamConstellation.getD i 0)).length = 64 := by
    rw [List.length_map, qamConstellation_length]
  rw [closestIdx]
  refine argminFirst_eq (0 : ℝ) _ i (by rw [hlen]; exact hi) ?_ ?_
  · intro j hj
    rw [hlen] at hj
    rw [getD_map _ _ _ (0 : ℂ) _ (by rw [qamConstellation_length]; exact hi),
      getD_map _ _ _ (0 : ℂ) _ (by rw [qamConstellation_length]; exact hj),
      sub_self, map_zero]
    exact AbsoluteValue.nonneg _ _
  · intro j hji
    have hj : j < 64 := lt_trans hji hi
    rw [getD_map _ _ _ (0 : ℂ) _ (by rw [qamConstellation_length]; exact hi),
      getD_map _ _ _ (0 : ℂ) _ (by rw [qamConstellation_length]; exact hj),
      sub_self, map_zero]
    refine Complex.abs.pos (sub_ne_zero.mpr fun hEq => ?_)
    exact absurd (qamConstellation_inj j i hj hi hEq) (Nat.ne_of_lt hji)

/-- C4: demapping the exact constellation point at index `i` yields 6 bits
whose MSB-first integer value (computed exactly as the modulator's
`_bits_to_qam_symbols` index) is `i` again. -/
theorem c4_constellation_demap_roundtrip (i : ℕ) (hi : i < 64) :
    (qamSymbolsToBits [qamConstellation.getD i 0]).length = 6 ∧
      qamIndexOfBits (qamSymbolsToBits [qamConstellation.getD i 0]) = i := by
  have hbits : qamSymbolsToBits [qamConstellation.getD i 0]
      = (List.range 6).map fun b => (i >>> (5 - b)) &&& 1 := by
    rw [qamSymbolsToBits, List.flatMap_cons, List.flatMap_nil, List.append_nil,
      closestIdx_self i hi]
  refine ⟨by rw [hbits]; simp, ?_⟩
  rw [hbits]
  have hval : ∀ n < 64,
      qamIndexOfBits ((List.range 6).map fun b => (n >>> (5 - b)) &&& 1) = n := by
    decide
  exact hval i hi

theorem c4_constellation_demap_roundtrip_witness :
    37 < 64 ∧
      ((qamSymbolsToBits [qamConstellation.getD 37 0]).length = 6 ∧
        qamIndexOfBits (qamSymbolsToBits [qamConstellation.getD 37 0]) = 37) :=
  ⟨by norm_num, c4_constellation_demap_roundtrip 37 (by norm_num)⟩

/-!
## Claims C5 and C7: envelope roundtrip and layout
-/

theorem pkcs7pad_length (m : List ℕ) :
    (pkcs7pad m).length = m.length + (16 - m.length % 16) := by
  simp [pkcs7pad]

theorem pkcs7_unpad_pad (m : List ℕ) : pkcs7unpad (pkcs7pad m) = some m := by
  have hp : 1 ≤ 16 - m.length % 16 ∧ 16 - m.length % 16 ≤ 16 := by omega
  have hlen := pkcs7pad_length m
  have hlast : (pkcs7pad m).getD ((pkcs7pad m).length - 1) 0 = 16 - m.length % 16 := by
    rw [hlen, pkcs7pad]
    rw [List.getD_append_right _ _ _ _ (by omega)]
    rw [List.getD_eq_getElem _ _ (by simp; omega), List.getElem_replicate]
  rw [pkcs7unpad, if_neg (by omega), if_neg (by simp; omega), hlast,
    if_neg (by simp; omega), if_neg ?_, hlen]
  · congr 1
    have : m.length + (16 - m.length % 16) - (16 - m.length % 16) = m.length := by omega
    rw [this, pkcs7pad, List.take_left]
  · rw [hlen, pkcs7pad]
    have : m.length + (16 - m.length % 16) - (16 - m.length % 16) = m.length := by omega
    rw [this, List.drop_left]
    simp

theorem beVal_two (L : ℕ) : beVal [L / 256, L % 256] = L := by
  simp only [beVal, List.foldl_cons, List.foldl_nil]
  omega

/-- C5: the envelope roundtrip. For every plaintext of at most 190 bytes,
every keypair, and every choice of the fresh symmetric key and IV, opening a
sealed envelope recovers the plaintext, given the library cipher contracts:
CBC decryption inverts CBC encryption under the same key and IV, and the OAEP
unwrap inverts the wrap under the matching keypair. -/
theorem c5_seal_open_roundtrip
    (aesEnc aesDec : List ℕ → List ℕ → List ℕ → List ℕ)
    (rsaWrap : List ℕ → List ℕ → List ℕ) (rsaUnwrap : List ℕ → List ℕ → Option (List ℕ))
    (pub priv aesKey iv data : List ℕ)
    (_hdata : data.length ≤ 190)
    (hinv : ∀ m, aesDec aesKey iv (aesEnc aesKey iv m) = m)
    (hwrap : rsaUnwrap priv (rsaWrap pub aesKey) = some aesKey)
    (hwlen : (rsaWrap pub aesKey).length < 65536)
    (hiv : iv.length = 16) :
    (encrypt aesEnc rsaWrap pub aesKey iv data).bind (decrypt aesDec rsaUnwrap priv)
      = some data := by
  rw [encrypt, beBytes2, if_pos hwlen]
  simp only [Option.some_bind]
  set ek := rsaWrap pub aesKey with hek
  set ct := aesEnc aesKey iv (pkcs7pad data) with hct
  set lb : List ℕ := [ek.length / 256, ek.length % 256] with hlb
  have hlb2 : lb.length = 2 := rfl
  have h1 : (lb ++ ek ++ iv ++ ct).take 2 = lb := by
    rw [List.append_assoc, List.append_assoc, List.take_left' hlb2]
  have h2 : pySlice (lb ++ ek ++ iv ++ ct) 2 (2 + ek.length) = ek := by
    rw [pySlice, List.append_assoc, List.append_assoc, List.drop_left' hlb2]
    have : 2 + ek.length - 2 = ek.length := by omega
    rw [this, List.take_left]
  have h3 : pySlice (lb ++ ek ++ iv ++ ct) (2 + ek.length) (2 + ek.length + 16) = iv := by
    rw [pySlice, List.append_assoc,
      List.drop_left' (by rw [List.length_append, hlb2])]
    have : 2 + ek.length + 16 - (2 + ek.length) = 16 := by omega
    rw [this, List.take_left' hiv]
  have h4 : (lb ++ ek ++ iv ++ ct).drop (2 + ek.length + 16) = ct := by
    rw [List.drop_left' (by rw [List.length_append, List.length_append, hlb2, hiv])]
  rw [decrypt, h1, hlb, beVal_two, h2, h3, h4, hwrap]
  simp only
  rw [hct, hinv, pkcs7_unpad_pad]

theorem c5_seal_open_roundtrip_witness :
    (([1, 2, 3] : List ℕ).length ≤ 190 ∧ (List.replicate 16 (0 : ℕ)).length = 16) ∧
      (encrypt (fun _ _ m => m) (fun _ k => k) [] [7] (List.replicate 16 0) [1, 2, 3]).bind
        (decrypt (fun _ _ m => m) (fun _ ek => some ek) []) = some [1, 2, 3] :=
  ⟨⟨by norm_num, by simp⟩,
    c5_seal_open_roundtrip (fun _ _ m => m) (fun _ _ m => m) (fun _ k => k)
      (fun _ ek => some ek) [] [] [7] (List.replicate 16 0) [1, 2, 3]
      (by norm_num) (fun m => rfl) rfl (by norm_num) (by simp)⟩

/-- C7: the sealed envelope has the exact layout
`[wrapped_key_len:2 BE][wrapped_key][iv:16][ciphertext]`, and the ciphertext
is a positive multiple of 16 bytes long (given the CBC library contract that
ciphertext length equals padded-plaintext length). -/
theorem c7_envelope_layout
    (aesEnc : List ℕ → List ℕ → List ℕ → List ℕ)
    (rsaWrap : List ℕ → List ℕ → List ℕ)
    (pub aesKey iv data : List ℕ)
    (hwlen : (rsaWrap pub aesKey).length < 65536)
    (hpres : (aesEnc aesKey iv (pkcs7pad data)).length = (pkcs7pad data).length) :
    encrypt aesEnc rsaWrap pub aesKey iv data
      = some ([(rsaWrap pub aesKey).length / 256, (rsaWrap pub aesKey).length % 256]
          ++ rsaWrap pub aesKey ++ iv ++ aesEnc aesKey iv (pkcs7pad data)) ∧
      (aesEnc aesKey iv (pkcs7pad data)).length % 16 = 0 ∧
      0 < (aesEnc aesKey iv (pkcs7pad data)).length := by
  refine ⟨by rw [encrypt, beBytes2, if_pos hwlen], ?_, ?_⟩
  · rw [hpres, pkcs7pad_length]; omega
  · rw [hpres, pkcs7pad_length]; omega

theorem c7_envelope_layout_witness :
    (((fun _ k => k : List ℕ → List ℕ → List ℕ) [] [7]).length < 65536 ∧
      ((fun _ _ m => m : List ℕ → List ℕ → List ℕ → List ℕ) [7] [] (pkcs7pad [1, 2, 3])).length
        = (pkcs7pad [1, 2, 3]).length) ∧
      (encrypt (fun _ _ m => m) (fun _ k => k) [] [7] [] [1, 2, 3]
          = some ([(([7] : List ℕ).length) / 256, (([7] : List ℕ).length) % 256]
              ++ [7] ++ [] ++ pkcs7pad [1, 2, 3]) ∧
        (pkcs7pad ([1, 2, 3] : List ℕ)).length % 16 = 0 ∧
        0 < (pkcs7pad ([1, 2, 3] : List ℕ)).length) :=
  ⟨⟨by norm_num, rfl⟩,
    c7_envelope_layout (fun _ _ m => m) (fun _ k => k) [] [7] [] [1, 2, 3]
      (by norm_num) rfl⟩

/-!
## Claim C8: transmit-side peak normalization
-/

theorem foldl_max_mul_nonneg (c : ℚ) (hc : 0 ≤ c) :
    ∀ (xs : List ℚ) (a : ℚ), (xs.map fun y => y * c).foldl max (a * c) = xs.foldl max a * c := by
  intro xs
  induction xs with
  | nil => intro a; rfl
  | cons x xs ih =>
    intro a
    simp only [List.map_cons, List.foldl_cons]
    rw [← max_mul_of_nonneg a x hc, ih]

theorem npMax_scale (l : List ℚ) (c : ℚ) (hc : 0 ≤ c) :
    npMax (l.map fun y => y * c) = npMax l * c := by
  cases l with
  | nil => simp [npMax]
  | cons x xs => exact foldl_max_mul_nonneg c hc xs x

/-- C8: `transmit` normalizes a waveform with nonzero peak so that the peak of
`|samples|` becomes exactly `0.8` before 16-bit PCM quantization
(`transmitSamples` quantizes `normalizeAudio`), and it leaves a zero-peak
waveform unchanged. -/
theorem c8_transmit_normalization (w : List ℚ) (_hw : w ≠ []) :
    (0 < npMax (w.map fun x => |x|) →
      npMax ((normalizeAudio w).map fun x => |x|) = 4 / 5) ∧
      (npMax (w.map fun x => |x|) = 0 → normalizeAudio w = w) := by
  constructor
  · intro hM
    rw [normalizeAudio]
    simp only [if_pos hM]
    have hr : ((w.map fun x => x * (4 / 5) / npMax (w.map fun x => |x|)).map fun x => |x|)
        = (w.map fun x => |x|).map fun y => y * (4 / 5 / npMax (w.map fun x => |x|)) := by
      rw [List.map_map, List.map_map]
      refine List.map_congr_left fun x _ => ?_
      simp only [Function.comp_apply]
      rw [mul_div_assoc, abs_mul, abs_of_nonneg (div_nonneg (by norm_num) hM.le)]
    rw [hr, npMax_scale _ _ (div_nonneg (by norm_num) hM.le), mul_comm,
      div_mul_cancel₀ _ (ne_of_gt hM)]
  · intro hM
    rw [normalizeAudio]
    simp only [hM, lt_irrefl, if_false]

theorem c8_transmit_normalization_witness :
    (([3, -4] : List ℚ) ≠ [] ∧ 0 < npMax (([3, -4] : List ℚ).map fun x => |x|) ∧
      npMax ((normalizeAudio [3, -4]).map fun x => |x|) = 4 / 5) ∧
      (([0] : List ℚ) ≠ [] ∧ npMax (([0] : List ℚ).map fun x => |x|) = 0 ∧
        normalizeAudio [0] = [0]) := by
  have e1 : (([3, -4] : List ℚ).map fun x => |x|) = [3, 4] := by norm_num
  have e2 : npMax ([3, 4] : List ℚ) = 4 := by
    show max 3 4 = (4 : ℚ)
    rw [max_eq_right (by norm_num)]
  have e3 : (([0] : List ℚ).map fun x => |x|) = [0] := by norm_num
  have e4 : npMax ([0] : List ℚ) = 0 := rfl
  have hpos : 0 < npMax (([3, -4] : List ℚ).map fun x => |x|) := by
    rw [e1, e2]; norm_num
  have hzero : npMax (([0] : List ℚ).map fun x => |x|) = 0 := by rw [e3, e4]
  exact ⟨⟨by simp, hpos, (c8_transmit_normalization [3, -4] (by simp)).1 hpos⟩,
    ⟨by simp, hzero, (c8_transmit_normalization [0] (by simp)).2 hzero⟩⟩

/-!
## Claim C1: the Huffman roundtrip fails on the code
-/

/-- C1: evaluating the compressor on failing inputs. A single-value input
gets the empty codeword, so all of its data vanishes:
`decompress (compress [0]) = some []`, not `some [0]`. A two-value input
decodes its zero pad bits as extra symbols:
`decompress (compress [65, 66])` appends six spurious bytes. -/
theorem c1_huffman_roundtrip_fails :
    (decompress (compress [0]) = some [] ∧ some [] ≠ some [(0 : ℕ)]) ∧
      decompress (compress [65, 66]) = some [65, 66, 66, 66, 66, 66, 66, 66] := by
  decide

end SonicLink
